import Mathlib

/-!
Verification development for the i965-blackbox call-interception tracer
(`i965-blackbox.cpp`).  The definitions below are a shallow embedding of the
source: the `Session` trace writer with its block stack, file rotation and
retention ring, the wire-level record format, and the interception shims.
Bytes are modelled as `Fin 256`, files as explicit byte lists, and the
file system as an explicit `World` value threaded through the operations.
-/

namespace I965Blackbox

/-- A raw byte of the trace stream. -/
abbrev Byte := Fin 256

/-- Embedding of `enum i965_batchbuffer_logger_message_type_t`:
`BLOCK_BEGIN`, `BLOCK_END`, `VALUE`. -/
inductive MessageType
  | blockBegin
  | blockEnd
  | value
deriving DecidableEq

/-- One record of the trace-file format: the header fields `type`,
`name_length`, `value_length` (the lengths are those of the two payload
lists) followed by the `name` and `value` payload bytes. -/
structure LogRecord where
  tp : MessageType
  name : List Byte
  val : List Byte
deriving DecidableEq

/-- Numeric code of a message type in the serialized header. -/
def typeCode : MessageType → Nat
  | MessageType.blockBegin => 0
  | MessageType.blockEnd => 1
  | MessageType.value => 2

/-- Inverse of `typeCode`. -/
def decodeType (n : Nat) : Option MessageType :=
  if n = 0 then some MessageType.blockBegin
  else if n = 1 then some MessageType.blockEnd
  else if n = 2 then some MessageType.value
  else none

/-- Little-endian 4-byte encoding of a `uint32` header field. -/
def le32 (n : Nat) : List Byte :=
  [⟨n % 256, by omega⟩,
   ⟨n / 256 % 256, by omega⟩,
   ⟨n / 256 / 256 % 256, by omega⟩,
   ⟨n / 256 / 256 / 256 % 256, by omega⟩]

/-- Value of four little-endian bytes. -/
def from4 (b0 b1 b2 b3 : Byte) : Nat :=
  b0.val + 256 * b1.val + 65536 * b2.val + 16777216 * b3.val

/-- Serialization of one record: fixed-size header (type, name_length,
value_length, each 4 bytes), then the name bytes, then the value bytes;
this is what one `Session::write_to_file` call appends to the file. -/
def encodeRecord (r : LogRecord) : List Byte :=
  le32 (typeCode r.tp) ++ le32 r.name.length ++ le32 r.val.length ++ r.name ++ r.val

/-- Concatenation of the serializations of a record sequence. -/
def encodeRecords : List LogRecord → List Byte
  | [] => []
  | r :: rs => encodeRecord r ++ encodeRecords rs

/-- Decode one record from the front of a byte stream, returning the
record and the remaining bytes. -/
def decodeOne : List Byte → Option (LogRecord × List Byte)
  | t0 :: t1 :: t2 :: t3 :: n0 :: n1 :: n2 :: n3 :: v0 :: v1 :: v2 :: v3 :: rest =>
    match decodeType (from4 t0 t1 t2 t3) with
    | none => none
    | some tp =>
      let nl := from4 n0 n1 n2 n3
      let vl := from4 v0 v1 v2 v3
      if nl + vl ≤ rest.length then
        some (⟨tp, rest.take nl, (rest.drop nl).take vl⟩, (rest.drop nl).drop vl)
      else none
  | _ => none

/-- Fuel-indexed decoding loop; each record consumes at least one byte,
so fuel equal to the stream length always suffices. -/
def decodeRecordsAux : Nat → List Byte → Option (List LogRecord)
  | _, [] => some []
  | 0, _ :: _ => none
  | fuel + 1, b :: bs =>
    match decodeOne (b :: bs) with
    | none => none
    | some (r, rest) =>
      match decodeRecordsAux fuel rest with
      | none => none
      | some rs => some (r :: rs)

/-- Decode a whole byte stream into its record sequence. -/
def decodeRecords (c : List Byte) : Option (List LogRecord) :=
  decodeRecordsAux c.length c

/-- A record is well-formed when its payload lengths fit in the `uint32`
header fields, as the C prototypes (`uint32_t name_length`) force. -/
def recWF (r : LogRecord) : Prop :=
  r.name.length < 2 ^ 32 ∧ r.val.length < 2 ^ 32

instance (r : LogRecord) : Decidable (recWF r) := by
  unfold recWF; infer_instance

theorem from4_le32 (n : Nat) (h : n < 2 ^ 32) :
    from4 ⟨n % 256, by omega⟩ ⟨n / 256 % 256, by omega⟩
      ⟨n / 256 / 256 % 256, by omega⟩ ⟨n / 256 / 256 / 256 % 256, by omega⟩ = n := by
  simp only [from4]
  omega

theorem typeCode_lt (tp : MessageType) : typeCode tp < 2 ^ 32 := by
  cases tp <;> simp [typeCode]

theorem decodeType_typeCode (tp : MessageType) : decodeType (typeCode tp) = some tp := by
  cases tp <;> rfl

theorem decodeOne_encodeRecord (r : LogRecord) (rest : List Byte) (h : recWF r) :
    decodeOne (encodeRecord r ++ rest) = some (r, rest) := by
  obtain ⟨hn, hv⟩ := h
  have hassoc : encodeRecord r ++ rest
      = le32 (typeCode r.tp) ++ (le32 r.name.length
          ++ (le32 r.val.length ++ (r.name ++ (r.val ++ rest)))) := by
    simp [encodeRecord, List.append_assoc]
  rw [hassoc]
  simp only [le32, List.cons_append, List.nil_append]
  simp only [decodeOne]
  rw [from4_le32 (typeCode r.tp) (typeCode_lt r.tp),
      from4_le32 r.name.length hn, from4_le32 r.val.length hv, decodeType_typeCode]
  have hlen : r.name.length + r.val.length ≤ (r.name ++ (r.val ++ rest)).length := by
    simp [List.length_append]
  simp only [if_pos hlen, List.take_left, List.drop_left]

theorem encodeRecord_length (r : LogRecord) :
    (encodeRecord r).length = 12 + r.name.length + r.val.length := by
  simp only [encodeRecord, le32, List.length_append, List.length_cons, List.length_nil]

theorem decodeRecordsAux_encodeRecords (rs : List LogRecord) :
    ∀ fuel : Nat, (encodeRecords rs).length ≤ fuel → (∀ r ∈ rs, recWF r) →
      decodeRecordsAux fuel (encodeRecords rs) = some rs := by
  induction rs with
  | nil => intro fuel _ _; cases fuel <;> rfl
  | cons r rs ih =>
    intro fuel hfuel hwf
    have hlen : (encodeRecords (r :: rs)).length
        = 12 + r.name.length + r.val.length + (encodeRecords rs).length := by
      show (encodeRecord r ++ encodeRecords rs).length = _
      simp only [List.length_append, encodeRecord_length]
    have hdec : decodeOne (encodeRecords (r :: rs)) = some (r, encodeRecords rs) :=
      decodeOne_encodeRecord r (encodeRecords rs) (hwf r (by simp))
    cases fuel with
    | zero => omega
    | succ fuel =>
      cases hbs : encodeRecords (r :: rs) with
      | nil => rw [hbs] at hlen; simp only [List.length_nil] at hlen; omega
      | cons b bs =>
        rw [hbs] at hdec
        have hrec : decodeRecordsAux fuel (encodeRecords rs) = some rs := by
          apply ih
          · rw [hbs] at hlen hfuel
            simp only [List.length_cons] at hlen hfuel
            omega
          · exact fun x hx => hwf x (by simp [hx])
        simp only [decodeRecordsAux, hdec, hrec]

theorem decodeRecords_encodeRecords (rs : List LogRecord) (hwf : ∀ r ∈ rs, recWF r) :
    decodeRecords (encodeRecords rs) = some rs :=
  decodeRecordsAux_encodeRecords rs (encodeRecords rs).length le_rfl hwf

/-- Embedding of class `Block`: a saved (name, value) byte pair of the
block stack (`Block::set` copies both payloads). -/
structure Block where
  name : List Byte
  val : List Byte
deriving DecidableEq

/-- Name of an output file.  The source builds it as the string
`m_prefix << "." << m_count`; for a fixed session that concatenation is
injective in the counter, so the embedding keeps the two components. -/
structure FileName where
  pfx : String
  idx : Nat
deriving DecidableEq

/-- The currently open `std::FILE`: its name and the bytes written so far
(`std::ftell` after only sequential writes equals the byte count). -/
structure OpenFile where
  fname : FileName
  contents : List Byte
deriving DecidableEq

/-- Embedding of class `Session`: field-for-field the data members of the
C++ class.  `m_filename` is `none` when the string is empty (initial
state, or after `m_filename.clear()` in retention mode). -/
structure Session where
  m_most_recent_ioctl_max : Nat
  m_max_filesize : Int
  m_count : Nat
  m_most_recent_ioctl_file_cnt : Nat
  m_most_recent_ioctl_files : List (Option FileName)
  m_block_stack : List Block
  m_pfx : String
  m_filename : Option FileName
  m_file : Option OpenFile
deriving DecidableEq

/-- The file system and an append-only ghost log of every `fclose`:
each entry records the `m_filename` at close time and the final byte
contents of the closed file. -/
structure World where
  disk : List FileName
  closedLog : List (Option FileName × List Byte)
deriving DecidableEq

/-- Embedding of `Session::write_to_file`: a no-op when no file is open,
otherwise appends header, name bytes, value bytes to the open file. -/
def write_to_file (s : Session) (r : LogRecord) : Session :=
  { s with m_file := s.m_file.map (fun f => { f with contents := f.contents ++ encodeRecord r }) }

/-- The `BLOCK_END` record that `close_file` writes for each open block
(`nullptr, 0, nullptr, 0`). -/
def endRecord : LogRecord := ⟨MessageType.blockEnd, [], []⟩

/-- The loop in `close_file` over `m_block_stack.rbegin()..rend()`: each
iteration writes one empty `BLOCK_END` record. -/
def writeEndsLoop (s : Session) : Nat → Session
  | 0 => s
  | n + 1 => writeEndsLoop (write_to_file s endRecord) n

/-- The `while (m_most_recent_ioctl_file_cnt >= m_most_recent_ioctl_max)`
eviction loop of `close_file`: pops the oldest retained filename and
removes that file from disk (`std::remove`), decrementing the count.
It is entered only under `m_most_recent_ioctl_max > 0`; reachable states
keep the count equal to the list length, so the `headD`/`tail` defaults
are never exercised. -/
def evictLoop (maxN : Nat) : Nat → List (Option FileName) → List FileName →
    Nat × List (Option FileName) × List FileName
  | 0, files, disk => (0, files, disk)
  | cnt + 1, files, disk =>
    if cnt + 1 ≥ maxN then
      evictLoop maxN cnt files.tail
        (match files.headD none with
         | some fn => disk.erase fn
         | none => disk)
    else (cnt + 1, files, disk)

/-- Contents of the currently open file (empty when none is open). -/
def contentsOf (s : Session) : List Byte :=
  match s.m_file with
  | some f => f.contents
  | none => []

/-- Embedding of `Session::close_file`: nothing happens without an open
file; otherwise one `BLOCK_END` is written per stack entry, the file is
closed (its final contents are recorded in the ghost `closedLog`), and in
retention mode the eviction loop runs, the just-closed filename is pushed
onto the ring and `m_filename` is cleared. -/
def close_file (s : Session) (w : World) : Session × World :=
  match s.m_file with
  | none => (s, w)
  | some _ =>
    let s1 := writeEndsLoop s s.m_block_stack.length
    let w1 : World := { w with closedLog := w.closedLog ++ [(s.m_filename, contentsOf s1)] }
    let s2 := { s1 with m_file := none }
    if s.m_most_recent_ioctl_max > 0 then
      let t := evictLoop s.m_most_recent_ioctl_max s2.m_most_recent_ioctl_file_cnt
        s2.m_most_recent_ioctl_files w1.disk
      ({ s2 with
           m_most_recent_ioctl_file_cnt := t.1 + 1,
           m_most_recent_ioctl_files := t.2.1 ++ [s.m_filename],
           m_filename := none },
       { w1 with disk := t.2.2 })
    else (s2, w1)

/-- Effect of `std::fopen(name, "w")` on the file system: the named file
exists afterwards (created, or truncated if already present). -/
def fopen_w (w : World) (fn : FileName) : World :=
  { w with disk := if fn ∈ w.disk then w.disk else w.disk ++ [fn] }

/-- The `BLOCK_BEGIN` record replaying one saved block. -/
def beginRecordOf (b : Block) : LogRecord := ⟨MessageType.blockBegin, b.name, b.val⟩

/-- Embedding of `Session::start_new_file`: closes the current file,
opens `m_prefix.m_count` (post-incrementing the counter), then replays
the whole block stack, outermost first, as `BLOCK_BEGIN` records. -/
def start_new_file (s : Session) (w : World) : Session × World :=
  let p := close_file s w
  let s1 := p.1
  let fn : FileName := ⟨s1.m_pfx, s1.m_count⟩
  let s2 := { s1 with
                m_count := s1.m_count + 1,
                m_filename := some fn,
                m_file := some { fname := fn, contents := [] } }
  let w2 := fopen_w p.2 fn
  let s3 := s2.m_block_stack.foldl (fun acc b => write_to_file acc (beginRecordOf b)) s2
  (s3, w2)

/-- Embedding of `Session::write_fcn`: `BLOCK_BEGIN` pushes the payload
pair onto the block stack, `BLOCK_END` pops it (`pop_back` on an empty
vector is undefined behavior, modelled as `none`), `VALUE` leaves the
stack alone; each then serializes the event via `write_to_file`. -/
def write_fcn (s : Session) (tp : MessageType) (name val : List Byte) : Option Session :=
  match tp with
  | MessageType.blockBegin =>
      some (write_to_file { s with m_block_stack := s.m_block_stack ++ [⟨name, val⟩] }
        ⟨tp, name, val⟩)
  | MessageType.blockEnd =>
      match s.m_block_stack with
      | [] => none
      | _ :: _ =>
          some (write_to_file { s with m_block_stack := s.m_block_stack.dropLast }
            ⟨tp, name, val⟩)
  | MessageType.value => some (write_to_file s ⟨tp, name, val⟩)

/-- Embedding of `Session::pre_execbuffer2_ioctl_fcn`: retention mode
always starts a new file; otherwise, with a file open whose size exceeds
a positive `m_max_filesize`, a new file is started; otherwise the file is
only flushed (`fflush` has no effect in the model). -/
def pre_execbuffer2_ioctl_fcn (s : Session) (w : World) (_id : Nat) : Session × World :=
  if s.m_most_recent_ioctl_max > 0 then start_new_file s w
  else
    match s.m_file with
    | none => (s, w)
    | some f =>
      if 0 < s.m_max_filesize ∧ s.m_max_filesize < (f.contents.length : Int)
      then start_new_file s w
      else (s, w)

/-- Embedding of `Session::post_execbuffer2_ioctl_fcn`: with a file open,
retention mode closes it, otherwise it is only flushed. -/
def post_execbuffer2_ioctl_fcn (s : Session) (w : World) (_id : Nat) : Session × World :=
  match s.m_file with
  | none => (s, w)
  | some _ =>
    if s.m_most_recent_ioctl_max > 0 then close_file s w else (s, w)

/-- Embedding of the `Session` constructor: in non-retention mode the
prefix carries the incremented static session serial; the first file is
opened immediately via `start_new_file`.  Returns the new session and
world together with the updated static serial. -/
def session_ctor (mrm : Nat) (maxfs : Int) (global_count : Nat) (env_pfx : String)
    (w : World) : (Session × World) × Nat :=
  let gc := if mrm = 0 then global_count + 1 else global_count
  let pfx := if mrm = 0 then env_pfx ++ ("-") ++ toString gc else env_pfx
  let s0 : Session :=
    { m_most_recent_ioctl_max := mrm,
      m_max_filesize := maxfs,
      m_count := 0,
      m_most_recent_ioctl_file_cnt := 0,
      m_most_recent_ioctl_files := [],
      m_block_stack := [],
      m_pfx := pfx,
      m_filename := none,
      m_file := none }
  (start_new_file s0 w, gc)

/-- One operation arriving at the Session from the instrumentation
layer: a `write` event, or a pre/post execbuffer2 dispatch boundary. -/
inductive SessionOp
  | write (tp : MessageType) (name val : List Byte)
  | preIoctl (id : Nat)
  | postIoctl (id : Nat)
deriving DecidableEq

/-- One step of the Session driven by an operation. -/
def sessionStep (s : Session) (w : World) : SessionOp → Option (Session × World)
  | SessionOp.write tp n v => (write_fcn s tp n v).map (fun s1 => (s1, w))
  | SessionOp.preIoctl i => some (pre_execbuffer2_ioctl_fcn s w i)
  | SessionOp.postIoctl i => some (post_execbuffer2_ioctl_fcn s w i)

/-- Run a list of operations through the Session. -/
def runOps (s : Session) (w : World) : List SessionOp → Option (Session × World)
  | [] => some (s, w)
  | op :: ops =>
    match sessionStep s w op with
    | none => none
    | some p => runOps p.1 p.2 ops

/-- Run a list of operations on a freshly constructed session over an
empty file system. -/
def runFromInit (mrm : Nat) (maxfs : Int) (global_count : Nat) (env_pfx : String)
    (ops : List SessionOp) : Option (Session × World) :=
  let p := (session_ctor mrm maxfs global_count env_pfx ⟨[], []⟩).1
  runOps p.1 p.2 ops

/-- Append bytes to the contents of an optionally open file (the effect
of one or more `write_to_file` calls on the `m_file` member). -/
def appendBytes (mo : Option OpenFile) (bs : List Byte) : Option OpenFile :=
  mo.map (fun f => { f with contents := f.contents ++ bs })

theorem writeEndsLoop_eq (n : Nat) : ∀ s : Session,
    writeEndsLoop s n
      = { s with m_file := appendBytes s.m_file (encodeRecords (List.replicate n endRecord)) } := by
  induction n with
  | zero =>
    intro s
    obtain ⟨a1, a2, a3, a4, a5, a6, a7, a8, mf⟩ := s
    cases mf with
    | none => rfl
    | some f =>
      obtain ⟨fn, c⟩ := f
      simp [writeEndsLoop, encodeRecords, appendBytes]
  | succ n ih =>
    intro s
    show writeEndsLoop (write_to_file s endRecord) n = _
    rw [ih]
    obtain ⟨a1, a2, a3, a4, a5, a6, a7, a8, mf⟩ := s
    cases mf with
    | none => rfl
    | some f =>
      obtain ⟨fn, c⟩ := f
      simp [write_to_file, encodeRecords, List.replicate_succ, List.append_assoc, appendBytes]

theorem replay_foldl_eq (bs : List Block) : ∀ s : Session,
    bs.foldl (fun acc b => write_to_file acc (beginRecordOf b)) s
      = { s with m_file := appendBytes s.m_file (encodeRecords (bs.map beginRecordOf)) } := by
  induction bs with
  | nil =>
    intro s
    obtain ⟨a1, a2, a3, a4, a5, a6, a7, a8, mf⟩ := s
    cases mf with
    | none => rfl
    | some f =>
      obtain ⟨fn, c⟩ := f
      simp [encodeRecords, appendBytes]
  | cons b bs ih =>
    intro s
    show bs.foldl _ (write_to_file s (beginRecordOf b)) = _
    rw [ih]
    obtain ⟨a1, a2, a3, a4, a5, a6, a7, a8, mf⟩ := s
    cases mf with
    | none => rfl
    | some f =>
      obtain ⟨fn, c⟩ := f
      simp [write_to_file, encodeRecords, List.append_assoc, appendBytes]

theorem close_file_core (s : Session) (w : World) :
    (close_file s w).1.m_block_stack = s.m_block_stack ∧
    (close_file s w).1.m_pfx = s.m_pfx ∧
    (close_file s w).1.m_count = s.m_count ∧
    (close_file s w).1.m_most_recent_ioctl_max = s.m_most_recent_ioctl_max ∧
    (close_file s w).1.m_max_filesize = s.m_max_filesize ∧
    (close_file s w).1.m_file = none := by
  cases hf : s.m_file with
  | none => simp [close_file, hf]
  | some f =>
    simp only [close_file, hf, writeEndsLoop_eq]
    split <;> simp

theorem close_file_closedLog (s : Session) (w : World) (f : OpenFile)
    (h : s.m_file = some f) :
    (close_file s w).2.closedLog = w.closedLog ++ [(s.m_filename,
        f.contents ++ encodeRecords (List.replicate s.m_block_stack.length endRecord))] := by
  simp only [close_file, h, writeEndsLoop_eq, contentsOf]
  split <;> simp [h, appendBytes]

theorem close_file_nofile (s : Session) (w : World) (h : s.m_file = none) :
    close_file s w = (s, w) := by
  simp [close_file, h]

theorem start_new_file_spec (s : Session) (w : World) :
    (start_new_file s w).1 = { (close_file s w).1 with
        m_count := s.m_count + 1,
        m_filename := some ⟨s.m_pfx, s.m_count⟩,
        m_file := some ⟨⟨s.m_pfx, s.m_count⟩,
          encodeRecords (s.m_block_stack.map beginRecordOf)⟩ } ∧
    (start_new_file s w).2 = fopen_w (close_file s w).2 ⟨s.m_pfx, s.m_count⟩ := by
  obtain ⟨hstk, hpfx, hcnt, _, _, _⟩ := close_file_core s w
  simp only [start_new_file, replay_foldl_eq, hstk, hpfx, hcnt]
  constructor
  · simp [appendBytes]
  · trivial

/-- Number of `BLOCK_BEGIN` records in a sequence. -/
def countBegins : List LogRecord → Nat
  | [] => 0
  | r :: rs => (if r.tp = MessageType.blockBegin then 1 else 0) + countBegins rs

/-- Number of `BLOCK_END` records in a sequence. -/
def countEnds : List LogRecord → Nat
  | [] => 0
  | r :: rs => (if r.tp = MessageType.blockEnd then 1 else 0) + countEnds rs

/-- Running block-nesting depth of a record sequence, starting from
depth `d`; `none` when some `BLOCK_END` arrives at depth zero (improper
nesting). -/
def openDepthFrom (d : Nat) : List LogRecord → Option Nat
  | [] => some d
  | r :: rs =>
    match r.tp with
    | MessageType.blockBegin => openDepthFrom (d + 1) rs
    | MessageType.blockEnd =>
      match d with
      | 0 => none
      | e + 1 => openDepthFrom e rs
    | MessageType.value => openDepthFrom d rs

/-- A byte stream is balanced when it decodes to a record sequence that
is properly nested (depth returns to zero, never underflows) and has
equally many `BLOCK_BEGIN` and `BLOCK_END` records. -/
def balancedBytes (c : List Byte) : Bool :=
  match decodeRecords c with
  | some rs => (openDepthFrom 0 rs == some 0) && (countBegins rs == countEnds rs)
  | none => false

theorem openDepthFrom_append (rs1 : List LogRecord) : ∀ (d : Nat) (rs2 : List LogRecord),
    openDepthFrom d (rs1 ++ rs2)
      = match openDepthFrom d rs1 with
        | some e => openDepthFrom e rs2
        | none => none := by
  induction rs1 with
  | nil => intro d rs2; rfl
  | cons r rs ih =>
    intro d rs2
    cases htp : r.tp with
    | blockBegin =>
      simp only [List.cons_append, openDepthFrom, htp]
      exact ih (d + 1) rs2
    | blockEnd =>
      cases d with
      | zero => simp only [List.cons_append, openDepthFrom, htp]
      | succ e =>
        simp only [List.cons_append, openDepthFrom, htp]
        exact ih e rs2
    | value =>
      simp only [List.cons_append, openDepthFrom, htp]
      exact ih d rs2

theorem openDepthFrom_replicate_end : ∀ d : Nat,
    openDepthFrom d (List.replicate d endRecord) = some 0 := by
  intro d
  induction d with
  | zero => rfl
  | succ e ih => simpa [List.replicate_succ, openDepthFrom, endRecord] using ih

theorem openDepthFrom_map_begin (bs : List Block) : ∀ d : Nat,
    openDepthFrom d (bs.map beginRecordOf) = some (d + bs.length) := by
  induction bs with
  | nil => intro d; simp [openDepthFrom]
  | cons b bs ih =>
    intro d
    simp only [List.map_cons, openDepthFrom, beginRecordOf, List.length_cons, ih]
    congr 1
    omega

theorem openDepthFrom_counts (rs : List LogRecord) : ∀ d e : Nat,
    openDepthFrom d rs = some e → e + countEnds rs = d + countBegins rs := by
  induction rs with
  | nil =>
    intro d e h
    simp only [openDepthFrom, Option.some.injEq] at h
    simp [countBegins, countEnds, h]
  | cons r rs ih =>
    intro d e h
    cases htp : r.tp with
    | blockBegin =>
      simp only [openDepthFrom, htp] at h
      have := ih (d + 1) e h
      simp [countBegins, countEnds, htp]
      omega
    | blockEnd =>
      simp only [openDepthFrom, htp] at h
      cases d with
      | zero => simp at h
      | succ d0 =>
        have := ih d0 e h
        simp [countBegins, countEnds, htp]
        omega
    | value =>
      simp only [openDepthFrom, htp] at h
      have := ih d e h
      simp [countBegins, countEnds, htp]
      omega

theorem balancedBytes_of (rs : List LogRecord) (hwf : ∀ r ∈ rs, recWF r)
    (hdepth : openDepthFrom 0 rs = some 0) :
    balancedBytes (encodeRecords rs) = true := by
  have hcount := openDepthFrom_counts rs 0 0 hdepth
  rw [balancedBytes, decodeRecords_encodeRecords rs hwf]
  simp [hdepth]
  omega

theorem encodeRecords_append (xs ys : List LogRecord) :
    encodeRecords (xs ++ ys) = encodeRecords xs ++ encodeRecords ys := by
  induction xs with
  | nil => rfl
  | cons x xs ih => simp [encodeRecords, ih, List.append_assoc]

/-- A stored block whose payload lengths fit the `uint32` header. -/
def blockWF (b : Block) : Prop := b.name.length < 2 ^ 32 ∧ b.val.length < 2 ^ 32

/-- Invariant of an (optionally open) file: its contents are encoded
well-formed records whose nesting depth equals `d`. -/
def FileInvAt (mo : Option OpenFile) (d : Nat) : Prop :=
  ∀ f, mo = some f → ∃ rs, f.contents = encodeRecords rs ∧ (∀ x ∈ rs, recWF x) ∧
    openDepthFrom 0 rs = some d

/-- Session invariant: stack entries are well-formed and the open file's
nesting depth equals the block-stack depth. -/
def SInv (s : Session) : Prop :=
  (∀ b ∈ s.m_block_stack, blockWF b) ∧ FileInvAt s.m_file s.m_block_stack.length

/-- World invariant: every file closed so far is balanced. -/
def WInv (w : World) : Prop := ∀ e ∈ w.closedLog, balancedBytes e.2 = true

/-- Well-formed operation: write payload lengths fit `uint32` (forced by
the `uint32_t name_length` / `value_length` C prototypes). -/
def opWF : SessionOp → Prop
  | SessionOp.write _ n v => n.length < 2 ^ 32 ∧ v.length < 2 ^ 32
  | SessionOp.preIoctl _ => True
  | SessionOp.postIoctl _ => True

instance (op : SessionOp) : Decidable (opWF op) := by
  cases op <;> simp only [opWF] <;> infer_instance

theorem write_to_file_m_file (s : Session) (r : LogRecord) :
    (write_to_file s r).m_file = appendBytes s.m_file (encodeRecord r) := rfl

theorem write_to_file_m_block_stack (s : Session) (r : LogRecord) :
    (write_to_file s r).m_block_stack = s.m_block_stack := rfl

theorem appendRecord_inv (mo : Option OpenFile) (d d2 : Nat) (r : LogRecord)
    (hinv : FileInvAt mo d) (hr : recWF r) (hstep : openDepthFrom d [r] = some d2) :
    FileInvAt (appendBytes mo (encodeRecord r)) d2 := by
  intro f1 hf1
  cases mo with
  | none => simp [appendBytes] at hf1
  | some f =>
    obtain ⟨rs, hc, hwf, hdepth⟩ := hinv f rfl
    simp only [appendBytes, Option.map_some, Option.map_some', Option.some.injEq] at hf1
    subst hf1
    refine ⟨rs ++ [r], ?_, ?_, ?_⟩
    · simp only [encodeRecords_append, hc]
      simp [encodeRecords]
    · intro x hx
      rcases List.mem_append.mp hx with h1 | h2
      · exact hwf x h1
      · simp at h2; subst h2; exact hr
    · rw [openDepthFrom_append, hdepth]
      exact hstep

theorem close_file_pres (s : Session) (w : World) (hs : SInv s) (hw : WInv w) :
    SInv (close_file s w).1 ∧ WInv (close_file s w).2 := by
  obtain ⟨hstk, hfile⟩ := hs
  obtain ⟨h1, h2, h3, h4, h5, h6⟩ := close_file_core s w
  cases hf : s.m_file with
  | none =>
    rw [close_file_nofile s w hf]
    exact ⟨⟨hstk, hfile⟩, hw⟩
  | some f =>
    obtain ⟨rs, hc, hrwf, hdepth⟩ := hfile f hf
    refine ⟨⟨?_, ?_⟩, ?_⟩
    · rw [h1]; exact hstk
    · intro f1 hf1
      rw [h6] at hf1
      cases hf1
    · intro e he
      rw [close_file_closedLog s w f hf] at he
      rcases List.mem_append.mp he with hin | hin
      · exact hw e hin
      · simp only [List.mem_singleton] at hin
        subst hin
        show balancedBytes (f.contents
          ++ encodeRecords (List.replicate s.m_block_stack.length endRecord)) = true
        rw [hc, ← encodeRecords_append]
        apply balancedBytes_of
        · intro x hx
          rcases List.mem_append.mp hx with hx1 | hx2
          · exact hrwf x hx1
          · rw [List.eq_of_mem_replicate hx2]
            exact ⟨by simp [endRecord], by simp [endRecord]⟩
        · rw [openDepthFrom_append, hdepth]
          exact openDepthFrom_replicate_end s.m_block_stack.length

theorem start_new_file_pres (s : Session) (w : World) (hs : SInv s) (hw : WInv w) :
    SInv (start_new_file s w).1 ∧ WInv (start_new_file s w).2 := by
  obtain ⟨h1, h2⟩ := start_new_file_spec s w
  have hcp := close_file_pres s w hs hw
  constructor
  · rw [h1]
    constructor
    · show ∀ b ∈ (close_file s w).1.m_block_stack, blockWF b
      rw [(close_file_core s w).1]
      exact hs.1
    · intro f1 hf1
      simp only [Option.some.injEq] at hf1
      refine ⟨s.m_block_stack.map beginRecordOf, ?_, ?_, ?_⟩
      · rw [← hf1]
      · intro x hx
        rcases List.mem_map.mp hx with ⟨b, hb, hxb⟩
        obtain ⟨hbn, hbv⟩ := hs.1 b hb
        subst hxb
        exact ⟨hbn, hbv⟩
      · show openDepthFrom 0 _ = some (close_file s w).1.m_block_stack.length
        rw [(close_file_core s w).1, openDepthFrom_map_begin]
        simp
  · rw [h2]
    exact fun e he => hcp.2 e he

theorem write_fcn_pres (s : Session) (tp : MessageType) (n v : List Byte)
    (hn : n.length < 2 ^ 32) (hv : v.length < 2 ^ 32) (hs : SInv s) :
    ∀ s1, write_fcn s tp n v = some s1 → SInv s1 := by
  intro s1 hEq
  obtain ⟨hstk, hfile⟩ := hs
  cases tp with
  | blockBegin =>
    simp only [write_fcn, Option.some.injEq] at hEq
    subst hEq
    refine ⟨?_, ?_⟩
    · simp only [write_to_file_m_block_stack]
      intro b hb
      rcases List.mem_append.mp hb with h1 | h2
      · exact hstk b h1
      · simp at h2; subst h2; exact ⟨hn, hv⟩
    · simp only [write_to_file_m_file, write_to_file_m_block_stack]
      have h := appendRecord_inv s.m_file s.m_block_stack.length
        (s.m_block_stack.length + 1) (LogRecord.mk MessageType.blockBegin n v)
        hfile (And.intro hn hv) rfl
      simpa [List.length_append] using h
  | blockEnd =>
    cases hbs : s.m_block_stack with
    | nil =>
      simp only [write_fcn, hbs] at hEq
      exact Option.noConfusion hEq
    | cons b bs =>
      simp only [write_fcn, hbs, Option.some.injEq] at hEq
      subst hEq
      refine ⟨?_, ?_⟩
      · simp only [write_to_file_m_block_stack]
        intro x hx
        refine hstk x ?_
        rw [hbs]
        exact List.dropLast_subset _ hx
      · simp only [write_to_file_m_file, write_to_file_m_block_stack]
        have hlen : s.m_block_stack.length = bs.length + 1 := by rw [hbs]; rfl
        have h := appendRecord_inv s.m_file s.m_block_stack.length bs.length
          (LogRecord.mk MessageType.blockEnd n v) hfile (And.intro hn hv)
          (by rw [hlen]; rfl)
        have hdl : (b :: bs).dropLast.length = bs.length := by
          simp [List.length_dropLast]
        rw [hdl]
        exact h
  | value =>
    simp only [write_fcn, Option.some.injEq] at hEq
    subst hEq
    refine ⟨?_, ?_⟩
    · simp only [write_to_file_m_block_stack]
      exact hstk
    · simp only [write_to_file_m_file, write_to_file_m_block_stack]
      exact appendRecord_inv s.m_file s.m_block_stack.length s.m_block_stack.length
        (LogRecord.mk MessageType.value n v) hfile (And.intro hn hv) rfl

theorem pre_pres (s : Session) (w : World) (i : Nat) (hs : SInv s) (hw : WInv w) :
    SInv (pre_execbuffer2_ioctl_fcn s w i).1 ∧ WInv (pre_execbuffer2_ioctl_fcn s w i).2 := by
  unfold pre_execbuffer2_ioctl_fcn
  split
  · exact start_new_file_pres s w hs hw
  · cases hf : s.m_file with
    | none => simp only [hf]; exact ⟨hs, hw⟩
    | some f =>
      simp only [hf]
      split
      · exact start_new_file_pres s w hs hw
      · exact ⟨hs, hw⟩

theorem post_pres (s : Session) (w : World) (i : Nat) (hs : SInv s) (hw : WInv w) :
    SInv (post_execbuffer2_ioctl_fcn s w i).1 ∧ WInv (post_execbuffer2_ioctl_fcn s w i).2 := by
  unfold post_execbuffer2_ioctl_fcn
  cases hf : s.m_file with
  | none => simp only [hf]; exact ⟨hs, hw⟩
  | some f =>
    simp only [hf]
    split
    · exact close_file_pres s w hs hw
    · exact ⟨hs, hw⟩

theorem runOps_pres (ops : List SessionOp) : ∀ s w s1 w1,
    (∀ op ∈ ops, opWF op) → SInv s → WInv w →
    runOps s w ops = some (s1, w1) → SInv s1 ∧ WInv w1 := by
  induction ops with
  | nil =>
    intro s w s1 w1 _ hs hw h
    simp only [runOps, Option.some.injEq, Prod.mk.injEq] at h
    obtain ⟨h1, h2⟩ := h
    subst h1; subst h2
    exact ⟨hs, hw⟩
  | cons op ops ih =>
    intro s w s1 w1 hops hs hw h
    rw [runOps] at h
    have hOpsTail : ∀ x ∈ ops, opWF x := fun x hx => hops x (List.mem_cons_of_mem _ hx)
    cases op with
    | write tp n v =>
      obtain ⟨hn, hv⟩ := hops (SessionOp.write tp n v) (List.mem_cons_self _ _)
      simp only [sessionStep] at h
      cases hwr : write_fcn s tp n v with
      | none =>
        rw [hwr] at h
        exact Option.noConfusion h
      | some s2 =>
        rw [hwr] at h
        exact ih s2 w s1 w1 hOpsTail (write_fcn_pres s tp n v hn hv hs s2 hwr) hw h
    | preIoctl i =>
      have hp := pre_pres s w i hs hw
      refine ih (pre_execbuffer2_ioctl_fcn s w i).1 (pre_execbuffer2_ioctl_fcn s w i).2
        s1 w1 hOpsTail hp.1 hp.2 ?_
      exact h
    | postIoctl i =>
      have hp := post_pres s w i hs hw
      refine ih (post_execbuffer2_ioctl_fcn s w i).1 (post_execbuffer2_ioctl_fcn s w i).2
        s1 w1 hOpsTail hp.1 hp.2 ?_
      exact h

theorem session_ctor_pres (mrm : Nat) (maxfs : Int) (gc : Nat) (env_pfx : String)
    (w : World) (hw : WInv w) :
    SInv (session_ctor mrm maxfs gc env_pfx w).1.1
      ∧ WInv (session_ctor mrm maxfs gc env_pfx w).1.2 := by
  apply start_new_file_pres
  · constructor
    · intro b hb; cases hb
    · intro f hf; cases hf
  · exact hw

/-- A concrete session value used to instantiate the claim theorems. -/
def sampleSession (mrm : Nat) (maxfs : Int) (stk : List Block) (mo : Option OpenFile) :
    Session :=
  { m_most_recent_ioctl_max := mrm,
    m_max_filesize := maxfs,
    m_count := 1,
    m_most_recent_ioctl_file_cnt := 0,
    m_most_recent_ioctl_files := [],
    m_block_stack := stk,
    m_pfx := ("p"),
    m_filename := some ⟨("p"), 0⟩,
    m_file := mo }

/-- An empty file system with no closed files yet. -/
def emptyWorld : World := ⟨[], []⟩

/-- A concrete open file holding one serialized record (12 bytes). -/
def sampleFile : OpenFile := ⟨⟨("p"), 0⟩, encodeRecord ⟨MessageType.value, [], []⟩⟩

/-- C9: serializing a sequence of events in the Session record format
(fixed header of event type, name length and value length as uint32,
then the raw name bytes, then the raw value bytes, records concatenated
in order) and decoding the resulting byte stream reproduces exactly the
same sequence of (type, name, value) tuples. -/
theorem C9_round_trip (rs : List LogRecord) (hwf : ∀ r ∈ rs, recWF r) :
    decodeRecords (encodeRecords rs) = some rs :=
  decodeRecords_encodeRecords rs hwf

theorem C9_round_trip_witness :
    decodeRecords (encodeRecords [⟨MessageType.blockBegin, [(7 : Byte)], []⟩,
        ⟨MessageType.value, [(1 : Byte), (2 : Byte)], [(3 : Byte)]⟩,
        ⟨MessageType.blockEnd, [], []⟩])
      = some [⟨MessageType.blockBegin, [(7 : Byte)], []⟩,
        ⟨MessageType.value, [(1 : Byte), (2 : Byte)], [(3 : Byte)]⟩,
        ⟨MessageType.blockEnd, [], []⟩] :=
  C9_round_trip _ (by decide)

/-- C10: a BLOCK_END write is well-defined exactly when the block stack
is non-empty: under that precondition the unconditional `pop_back` is
safe (the embedding's undefined-behavior branch is unreachable), while a
BLOCK_END arriving with an empty block stack has no defined result. -/
theorem C10_blockEnd_pop (s : Session) (n v : List Byte) :
    (s.m_block_stack ≠ [] → (write_fcn s MessageType.blockEnd n v).isSome = true) ∧
    (s.m_block_stack = [] → write_fcn s MessageType.blockEnd n v = none) := by
  constructor
  · intro h
    cases hbs : s.m_block_stack with
    | nil => exact absurd hbs h
    | cons b bs => simp [write_fcn, hbs]
  · intro h
    simp [write_fcn, h]

theorem C10_blockEnd_pop_witness :
    (write_fcn (sampleSession 0 16 [⟨[], []⟩] none) MessageType.blockEnd [] []).isSome = true
    ∧ write_fcn (sampleSession 0 16 [] none) MessageType.blockEnd [] [] = none :=
  ⟨(C10_blockEnd_pop (sampleSession 0 16 [⟨[], []⟩] none) [] []).1 (by decide),
   (C10_blockEnd_pop (sampleSession 0 16 [] none) [] []).2 (by decide)⟩

/-- C2: `write_fcn` pushes the (name, value) pair for BLOCK_BEGIN, pops
the top of the stack for BLOCK_END (when defined), and leaves the stack
alone for VALUE; in each case the record (header, then name bytes, then
value bytes) is appended to the open file if there is one, and with no
file open the very same stack mutation happens with no error and no file
effect (`appendBytes none _ = none`). -/
theorem C2_write_semantics (s : Session) (n v : List Byte) :
    (write_fcn s MessageType.blockBegin n v
      = some { s with
                 m_block_stack := s.m_block_stack ++ [⟨n, v⟩],
                 m_file := appendBytes s.m_file (encodeRecord ⟨MessageType.blockBegin, n, v⟩) }) ∧
    (s.m_block_stack ≠ [] →
      write_fcn s MessageType.blockEnd n v
        = some { s with
                   m_block_stack := s.m_block_stack.dropLast,
                   m_file := appendBytes s.m_file (encodeRecord ⟨MessageType.blockEnd, n, v⟩) }) ∧
    (write_fcn s MessageType.value n v
      = some { s with m_file := appendBytes s.m_file (encodeRecord ⟨MessageType.value, n, v⟩) }) ∧
    (s.m_file = none → ∀ tp s1, write_fcn s tp n v = some s1 → s1.m_file = none) := by
  refine ⟨rfl, ?_, rfl, ?_⟩
  · intro h
    cases hbs : s.m_block_stack with
    | nil => exact absurd hbs h
    | cons b bs =>
      simp [write_fcn, hbs, write_to_file, appendBytes]
  · intro hnone tp s1 h
    cases tp with
    | blockBegin =>
      simp only [write_fcn, Option.some.injEq] at h
      subst h
      simp [write_to_file_m_file, appendBytes, hnone]
    | blockEnd =>
      cases hbs : s.m_block_stack with
      | nil =>
        simp only [write_fcn, hbs] at h
        exact Option.noConfusion h
      | cons b bs =>
        simp only [write_fcn, hbs, Option.some.injEq] at h
        subst h
        simp [write_to_file_m_file, appendBytes, hnone]
    | value =>
      simp only [write_fcn, Option.some.injEq] at h
      subst h
      simp [write_to_file_m_file, appendBytes, hnone]

theorem C2_write_semantics_witness :
    (write_fcn (sampleSession 0 16 [⟨[], []⟩] none) MessageType.blockEnd [] []
      = some { sampleSession 0 16 [⟨[], []⟩] none with
                 m_block_stack := [],
                 m_file := none }) ∧
    ((sampleSession 0 16 [⟨[], []⟩] none).m_file = none) ∧
    (write_fcn (sampleSession 0 16 [] none) MessageType.value [] []
      = some (sampleSession 0 16 [] none)) := by
  refine ⟨?_, by decide, ?_⟩
  · have h := (C2_write_semantics (sampleSession 0 16 [⟨[], []⟩] none) [] []).2.1 (by decide)
    rw [h]
    decide
  · have h := (C2_write_semantics (sampleSession 0 16 [] none) [] []).2.2.1
    rw [h]
    decide

/-- C1: `start_new_file` first closes the current file (same closed-file
log as a bare `close_file`) and the fresh file then contains exactly the
block stack replayed outermost-first as BLOCK_BEGIN records, before any
other event; `close_file` on an open file records the file extended by
exactly stack-depth BLOCK_END records and leaves no file open; and every
file produced by a session run from a fresh session (final close
included) decodes in isolation to a balanced record sequence, with equal
BLOCK_BEGIN and BLOCK_END counts and proper nesting. -/
theorem C1_replay_and_balanced :
    (∀ s w, (start_new_file s w).1.m_file
        = some ⟨⟨s.m_pfx, s.m_count⟩, encodeRecords (s.m_block_stack.map beginRecordOf)⟩
      ∧ (start_new_file s w).2.closedLog = (close_file s w).2.closedLog) ∧
    (∀ s w f, s.m_file = some f →
      (close_file s w).2.closedLog = w.closedLog ++ [(s.m_filename,
        f.contents ++ encodeRecords (List.replicate s.m_block_stack.length endRecord))]
      ∧ (close_file s w).1.m_file = none) ∧
    (∀ mrm maxfs gc pfx ops s1 w1, (∀ op ∈ ops, opWF op) →
      runFromInit mrm maxfs gc pfx ops = some (s1, w1) →
      ∀ e ∈ (close_file s1 w1).2.closedLog, balancedBytes e.2 = true) := by
  refine ⟨?_, ?_, ?_⟩
  · intro s w
    obtain ⟨h1, h2⟩ := start_new_file_spec s w
    constructor
    · rw [h1]
    · rw [h2]; rfl
  · intro s w f hf
    exact ⟨close_file_closedLog s w f hf, (close_file_core s w).2.2.2.2.2⟩
  · intro mrm maxfs gc pfx ops s1 w1 hops hrun
    have hweW : WInv (⟨[], []⟩ : World) := by intro e he; cases he
    have hinit := session_ctor_pres mrm maxfs gc pfx ⟨[], []⟩ hweW
    have hrun1 : runOps (session_ctor mrm maxfs gc pfx ⟨[], []⟩).1.1
        (session_ctor mrm maxfs gc pfx ⟨[], []⟩).1.2 ops = some (s1, w1) := hrun
    have hrp := runOps_pres ops _ _ s1 w1 hops hinit.1 hinit.2 hrun1
    exact (close_file_pres s1 w1 hrp.1 hrp.2).2

/-- Concrete operation stream for instantiating the balance claim: the
first file rotates by size with one block still open. -/
def C1ops : List SessionOp :=
  [SessionOp.write MessageType.blockBegin [(3 : Byte)] [],
   SessionOp.preIoctl 0,
   SessionOp.write MessageType.value [] [(7 : Byte)],
   SessionOp.write MessageType.blockEnd [] [],
   SessionOp.postIoctl 0]

theorem C1_replay_and_balanced_witness :
    ((runFromInit 0 5 0 ("p") C1ops).map
      (fun p => (close_file p.1 p.2).2.closedLog.all (fun e => balancedBytes e.2)))
      = some true := by
  cases hr : runFromInit 0 5 0 ("p") C1ops with
  | none => exact absurd hr (by decide)
  | some p =>
    have hb := C1_replay_and_balanced.2.2 0 5 0 ("p") C1ops p.1 p.2 (by decide) hr
    show some ((close_file p.1 p.2).2.closedLog.all fun e => balancedBytes e.2) = some true
    refine congrArg some ?_
    rw [List.all_eq_true]
    intro e he
    exact hb e he

/-- C3: exactly one action happens at a pre-dispatch boundary, with this
precedence: retention mode always starts a new file; otherwise an open
file whose size exceeds a positive configured bound starts a new file;
otherwise an open file is only flushed (no state change in the model);
and the post-dispatch boundary with a file open closes it in retention
mode and only flushes it otherwise. -/
theorem C3_boundary_policy (s : Session) (w : World) (i : Nat) :
    (0 < s.m_most_recent_ioctl_max →
      pre_execbuffer2_ioctl_fcn s w i = start_new_file s w) ∧
    (s.m_most_recent_ioctl_max = 0 → s.m_file = none →
      pre_execbuffer2_ioctl_fcn s w i = (s, w)) ∧
    (∀ f, s.m_most_recent_ioctl_max = 0 → s.m_file = some f →
      0 < s.m_max_filesize → s.m_max_filesize < (f.contents.length : Int) →
      pre_execbuffer2_ioctl_fcn s w i = start_new_file s w) ∧
    (∀ f, s.m_most_recent_ioctl_max = 0 → s.m_file = some f →
      ¬(0 < s.m_max_filesize ∧ s.m_max_filesize < (f.contents.length : Int)) →
      pre_execbuffer2_ioctl_fcn s w i = (s, w)) ∧
    (∀ f, s.m_file = some f → 0 < s.m_most_recent_ioctl_max →
      post_execbuffer2_ioctl_fcn s w i = close_file s w) ∧
    (∀ f, s.m_file = some f → s.m_most_recent_ioctl_max = 0 →
      post_execbuffer2_ioctl_fcn s w i = (s, w)) ∧
    (s.m_file = none → post_execbuffer2_ioctl_fcn s w i = (s, w)) := by
  refine ⟨?_, ?_, ?_, ?_, ?_, ?_, ?_⟩
  · intro h
    simp [pre_execbuffer2_ioctl_fcn, h]
  · intro h hf
    simp [pre_execbuffer2_ioctl_fcn, h, hf]
  · intro f h hf h1 h2
    simp [pre_execbuffer2_ioctl_fcn, h, hf, h1, h2]
  · intro f h hf hcond
    simp only [pre_execbuffer2_ioctl_fcn, h, hf]
    simp [hcond]
  · intro f hf h
    simp [post_execbuffer2_ioctl_fcn, hf, h]
  · intro f hf h
    simp [post_execbuffer2_ioctl_fcn, hf, h]
  · intro hf
    simp [post_execbuffer2_ioctl_fcn, hf]

theorem C3_boundary_policy_witness :
    (pre_execbuffer2_ioctl_fcn (sampleSession 2 16 [] none) emptyWorld 0
      = start_new_file (sampleSession 2 16 [] none) emptyWorld) ∧
    (pre_execbuffer2_ioctl_fcn (sampleSession 0 16 [] none) emptyWorld 0
      = (sampleSession 0 16 [] none, emptyWorld)) ∧
    (pre_execbuffer2_ioctl_fcn (sampleSession 0 1 [] (some sampleFile)) emptyWorld 0
      = start_new_file (sampleSession 0 1 [] (some sampleFile)) emptyWorld) ∧
    (pre_execbuffer2_ioctl_fcn (sampleSession 0 99 [] (some sampleFile)) emptyWorld 0
      = (sampleSession 0 99 [] (some sampleFile), emptyWorld)) ∧
    (post_execbuffer2_ioctl_fcn (sampleSession 2 16 [] (some sampleFile)) emptyWorld 0
      = close_file (sampleSession 2 16 [] (some sampleFile)) emptyWorld) ∧
    (post_execbuffer2_ioctl_fcn (sampleSession 0 16 [] (some sampleFile)) emptyWorld 0
      = (sampleSession 0 16 [] (some sampleFile), emptyWorld)) ∧
    (post_execbuffer2_ioctl_fcn (sampleSession 0 16 [] none) emptyWorld 0
      = (sampleSession 0 16 [] none, emptyWorld)) :=
  ⟨(C3_boundary_policy (sampleSession 2 16 [] none) emptyWorld 0).1 (by decide),
   (C3_boundary_policy (sampleSession 0 16 [] none) emptyWorld 0).2.1 (by decide) (by decide),
   (C3_boundary_policy (sampleSession 0 1 [] (some sampleFile)) emptyWorld 0).2.2.1 sampleFile
     (by decide) (by decide) (by decide) (by decide),
   (C3_boundary_policy (sampleSession 0 99 [] (some sampleFile)) emptyWorld 0).2.2.2.1 sampleFile
     (by decide) (by decide) (by decide),
   (C3_boundary_policy (sampleSession 2 16 [] (some sampleFile)) emptyWorld 0).2.2.2.2.1 sampleFile
     (by decide) (by decide),
   (C3_boundary_policy (sampleSession 0 16 [] (some sampleFile)) emptyWorld 0).2.2.2.2.2.1 sampleFile
     (by decide) (by decide),
   (C3_boundary_policy (sampleSession 0 16 [] none) emptyWorld 0).2.2.2.2.2.2 (by decide)⟩

/-- Operation stream refuting the single-record reading of the size
bound: two 12-byte records are written between two boundaries. -/
def C4ops : List SessionOp :=
  [SessionOp.write MessageType.value [] [],
   SessionOp.write MessageType.value [] [],
   SessionOp.preIoctl 0]

/-- C4 counterexample: with threshold T = 1 and two header-only records
written between boundaries, the closed file is 24 bytes — it decodes to
two records of 12 encoded bytes each, yet 24 exceeds T plus the size of
the record that pushed the file over the threshold (1 + 12 = 13), so a
file can exceed T by more than that single record. -/
theorem C4_counterexample :
    ((runFromInit 0 1 0 ("p") C4ops).map
        (fun p => p.2.closedLog.map (fun e => (e.2.length, decodeRecords e.2))))
      = some [(24, some [⟨MessageType.value, [], []⟩, ⟨MessageType.value, [], []⟩])]
    ∧ (encodeRecord ⟨MessageType.value, [], []⟩).length = 12
    ∧ ¬(24 ≤ 1 + 12) := by
  refine ⟨by decide, by decide, by decide⟩

/-- C4 (amended): with retention off and a positive bound T, the size
threshold is checked only at dispatch boundaries — a pre-dispatch
boundary rotates exactly when the open file exceeds T, so a file that
survives the boundary is at most T bytes, while writes between
boundaries never rotate, close or shrink the file; hence a closed file
may exceed T by everything written since the last boundary check, not
merely by one record. -/
theorem C4_threshold_at_boundaries (s : Session) (w : World) (i : Nat) (f : OpenFile)
    (hmrm : s.m_most_recent_ioctl_max = 0) (hf : s.m_file = some f)
    (hpos : 0 < s.m_max_filesize) :
    (s.m_max_filesize < (f.contents.length : Int) →
      pre_execbuffer2_ioctl_fcn s w i = start_new_file s w) ∧
    ((f.contents.length : Int) ≤ s.m_max_filesize →
      pre_execbuffer2_ioctl_fcn s w i = (s, w)) ∧
    (∀ tp n v s1, write_fcn s tp n v = some s1 →
      ∃ f1, s1.m_file = some f1 ∧ f1.fname = f.fname
        ∧ f.contents.length ≤ f1.contents.length) := by
  refine ⟨?_, ?_, ?_⟩
  · intro hgt
    simp [pre_execbuffer2_ioctl_fcn, hmrm, hf, hpos, hgt]
  · intro hle
    simp only [pre_execbuffer2_ioctl_fcn, hmrm, hf]
    have : ¬(0 < s.m_max_filesize ∧ s.m_max_filesize < (f.contents.length : Int)) := by
      intro hc
      omega
    simp [this]
  · intro tp n v s1 h
    have hfile : s1.m_file = appendBytes s.m_file (encodeRecord ⟨tp, n, v⟩) := by
      cases tp with
      | blockBegin =>
        simp only [write_fcn, Option.some.injEq] at h
        subst h
        rfl
      | blockEnd =>
        cases hbs : s.m_block_stack with
        | nil =>
          simp only [write_fcn, hbs] at h
          exact Option.noConfusion h
        | cons b bs =>
          simp only [write_fcn, hbs, Option.some.injEq] at h
          subst h
          rfl
      | value =>
        simp only [write_fcn, Option.some.injEq] at h
        subst h
        rfl
    refine ⟨⟨f.fname, f.contents ++ encodeRecord ⟨tp, n, v⟩⟩, ?_, rfl, ?_⟩
    · rw [hfile, hf]
      rfl
    · simp

theorem C4_threshold_at_boundaries_witness :
    (pre_execbuffer2_ioctl_fcn (sampleSession 0 1 [] (some sampleFile)) emptyWorld 0
      = start_new_file (sampleSession 0 1 [] (some sampleFile)) emptyWorld) ∧
    (pre_execbuffer2_ioctl_fcn (sampleSession 0 99 [] (some sampleFile)) emptyWorld 0
      = (sampleSession 0 99 [] (some sampleFile), emptyWorld)) := by
  refine ⟨?_, ?_⟩
  · exact (C4_threshold_at_boundaries (sampleSession 0 1 [] (some sampleFile)) emptyWorld 0
      sampleFile (by decide) (by decide) (by decide)).1 (by decide)
  · exact (C4_threshold_at_boundaries (sampleSession 0 99 [] (some sampleFile)) emptyWorld 0
      sampleFile (by decide) (by decide) (by decide)).2.1 (by decide)

/-- A C function pointer as seen by the interception stubs: null, a real
resolved address, or the generated do-nothing stub. -/
inductive CFnPtr
  | null
  | real_fn (addr : Nat)
  | do_nothing
deriving DecidableEq

/-- Binding step of the macro-generated stubs (`FUNCTION_ENTRY` /
`FUNCTION_ENTRY_RET`): `_name = fetch_function(#name); if (!_name)
_name = _name_do_nothing;`. -/
def function_entry_init_bind (fetched : CFnPtr) : CFnPtr :=
  match fetched with
  | CFnPtr.null => CFnPtr.do_nothing
  | p => p

/-- Binding step of the hand-written `glXSwapBuffers` / `eglSwapBuffers`
shims: `fptr = gl_dlsym("glXSwapBuffers");` with no null check before
`fptr(dpy, drawable)`. -/
def swap_buffers_bind (fetched : CFnPtr) : CFnPtr := fetched

/-- Invoking a function pointer: calling null is a crash (`none`); any
other target is a safe call that returns. -/
def invoke_fptr : CFnPtr → Option Unit
  | CFnPtr.null => none
  | CFnPtr.real_fn _ => some ()
  | CFnPtr.do_nothing => some ()

/-- C6 counterexample: when the resolver fails (returns null), the
hand-written `glXSwapBuffers`/`eglSwapBuffers` shims leave the dispatch
pointer null — no do-nothing stub is substituted — and invoking them
dereferences a null function pointer (modelled as a crash), contradicting
the claim that the no-op substitution also covers the hand-written
shims. -/
theorem C6_counterexample :
    swap_buffers_bind CFnPtr.null = CFnPtr.null ∧
    invoke_fptr (swap_buffers_bind CFnPtr.null) = none ∧
    invoke_fptr (function_entry_init_bind CFnPtr.null) = some () :=
  ⟨rfl, rfl, rfl⟩

/-- C6 (amended): for every macro-generated entry point, resolution
failure substitutes the do-nothing stub, so invocation is always safe
and never calls a null pointer; the hand-written swap-buffer shims,
however, call the fetched pointer unchecked and are safe only when
resolution succeeded. -/
theorem C6_noop_substitution (fetched : CFnPtr) :
    invoke_fptr (function_entry_init_bind fetched) = some () ∧
    function_entry_init_bind fetched ≠ CFnPtr.null ∧
    (fetched ≠ CFnPtr.null → invoke_fptr (swap_buffers_bind fetched) = some ()) := by
  refine ⟨?_, ?_, ?_⟩
  · cases fetched <;> rfl
  · cases fetched <;> simp [function_entry_init_bind]
  · intro h
    cases fetched with
    | null => exact absurd rfl h
    | real_fn a => rfl
    | do_nothing => rfl

theorem C6_noop_substitution_witness :
    invoke_fptr (function_entry_init_bind CFnPtr.null) = some () ∧
    invoke_fptr (swap_buffers_bind (CFnPtr.real_fn 5)) = some () :=
  ⟨(C6_noop_substitution CFnPtr.null).1,
   (C6_noop_substitution (CFnPtr.real_fn 5)).2.2 (by decide)⟩

/-- The process-wide mutable state of the interposer relevant to the
presentation-boundary logic: the globals `logger_app` (modelled by the
`logger_attached` flag), `logger_session`, `frame_count`, `api_count`,
`numframes_per_file`, `most_recent_ioctl_max`, `max_filesize`, the static
session serial of the `Session` constructor, and the filename-prefix
environment value. -/
structure GlobalState where
  logger_attached : Bool
  session : Option Session
  world : World
  frame_count : Nat
  api_count : Nat
  numframes_per_file : Nat
  most_recent_ioctl_max : Nat
  max_filesize : Int
  session_serial : Nat
  env_pfx : String

/-- Embedding of `frame_should_start_new_session`. -/
def frame_should_start_new_session (g : GlobalState) : Bool :=
  decide (g.numframes_per_file > 0) && decide (g.frame_count ≥ g.numframes_per_file)
    && decide (g.most_recent_ioctl_max = 0)

/-- Effect of `logger_app->end_session`: the current Session is deleted,
which runs its destructor and hence `close_file`. -/
def end_session_global (g : GlobalState) : GlobalState :=
  match g.session with
  | some s => { g with session := none, world := (close_file s g.world).2 }
  | none => { g with session := none }

/-- Embedding of the post-call block shared by the hand-written
`glXSwapBuffers` and `eglSwapBuffers` shims: when the logger is attached
and `frame_should_start_new_session` holds, the frame counter is zeroed,
the session is ended and a brand-new one is started; then `frame_count`
and `api_count` are incremented unconditionally. -/
def swapBuffers_step (g : GlobalState) : GlobalState :=
  let g1 :=
    if g.logger_attached then
      if frame_should_start_new_session g then
        let g2 := { g with frame_count := 0 }
        let g3 := end_session_global g2
        let r := session_ctor g3.most_recent_ioctl_max g3.max_filesize g3.session_serial
          g3.env_pfx g3.world
        { g3 with session := some r.1.1, world := r.1.2, session_serial := r.2 }
      else g
    else g
  { g1 with frame_count := g1.frame_count + 1, api_count := g1.api_count + 1 }

theorem session_ctor_fresh (mrm : Nat) (maxfs : Int) (gc : Nat) (pfx : String) (w : World) :
    (session_ctor mrm maxfs gc pfx w).1.1.m_count = 1 ∧
    (session_ctor mrm maxfs gc pfx w).1.1.m_filename
      = some ⟨(session_ctor mrm maxfs gc pfx w).1.1.m_pfx, 0⟩ := by
  simp only [session_ctor]
  obtain ⟨h1, h2⟩ := start_new_file_spec
    { m_most_recent_ioctl_max := mrm, m_max_filesize := maxfs, m_count := 0,
      m_most_recent_ioctl_file_cnt := 0, m_most_recent_ioctl_files := [],
      m_block_stack := [],
      m_pfx := if mrm = 0 then pfx ++ ("-") ++ toString (if mrm = 0 then gc + 1 else gc)
        else pfx,
      m_filename := none, m_file := none } w
  rw [h1]
  refine ⟨rfl, ?_⟩
  have hp := (close_file_core
    { m_most_recent_ioctl_max := mrm, m_max_filesize := maxfs, m_count := 0,
      m_most_recent_ioctl_file_cnt := 0, m_most_recent_ioctl_files := [],
      m_block_stack := [],
      m_pfx := if mrm = 0 then pfx ++ ("-") ++ toString (if mrm = 0 then gc + 1 else gc)
        else pfx,
      m_filename := none, m_file := none } w).2.1
  simp only [hp]

/-- C7: with retention active, `frame_should_start_new_session` is false
and a presentation boundary never replaces the session; with retention
inactive, an attached logger, a positive frame bound, and the frame
counter at the bound, the boundary ends the session and begins a fresh
one whose file-sequence counter has produced exactly file number 0 (the
counter restarted at 0), resetting the frame counter. -/
theorem C7_frame_session_replacement (g : GlobalState) :
    (0 < g.most_recent_ioctl_max →
      frame_should_start_new_session g = false ∧
      (swapBuffers_step g).session = g.session) ∧
    (g.logger_attached = true → 0 < g.numframes_per_file →
      g.numframes_per_file ≤ g.frame_count → g.most_recent_ioctl_max = 0 →
      ∃ s1, (swapBuffers_step g).session = some s1
        ∧ s1.m_count = 1
        ∧ s1.m_filename = some ⟨s1.m_pfx, 0⟩
        ∧ (swapBuffers_step g).frame_count = 1
        ∧ (swapBuffers_step g).session_serial = g.session_serial + 1) := by
  constructor
  · intro h
    have hfs : frame_should_start_new_session g = false := by
      simp [frame_should_start_new_session]
      omega
    refine ⟨hfs, ?_⟩
    simp only [swapBuffers_step, hfs]
    split <;> rfl
  · intro hat hpos hge hmrm
    have hfs : frame_should_start_new_session g = true := by
      simp [frame_should_start_new_session]
      omega
    have hg3 : ∀ g2 : GlobalState, (end_session_global g2).most_recent_ioctl_max
        = g2.most_recent_ioctl_max ∧ (end_session_global g2).max_filesize = g2.max_filesize
        ∧ (end_session_global g2).session_serial = g2.session_serial
        ∧ (end_session_global g2).env_pfx = g2.env_pfx
        ∧ (end_session_global g2).frame_count = g2.frame_count := by
      intro g2
      cases hs : g2.session <;> simp [end_session_global, hs]
    simp only [swapBuffers_step, hfs, if_true]
    split
    · obtain ⟨e1, e2, e3, e4, e5⟩ := hg3 { g with frame_count := 0 }
      refine ⟨_, rfl, (session_ctor_fresh _ _ _ _ _).1, (session_ctor_fresh _ _ _ _ _).2,
        ?_, ?_⟩
      · show (end_session_global { g with frame_count := 0 }).frame_count + 1 = 1
        rw [e5]
      · show (if (end_session_global { g with frame_count := 0 }).most_recent_ioctl_max = 0
            then (end_session_global { g with frame_count := 0 }).session_serial + 1
            else (end_session_global { g with frame_count := 0 }).session_serial)
            = g.session_serial + 1
        rw [e1, e3]
        simp [hmrm]
    · next hcond => exact absurd hat hcond

theorem C7_frame_session_replacement_witness :
    (frame_should_start_new_session
        ⟨true, none, emptyWorld, 7, 0, 5, 3, 16, 0, ("p")⟩ = false ∧
      (swapBuffers_step ⟨true, none, emptyWorld, 7, 0, 5, 3, 16, 0, ("p")⟩).session = none) ∧
    (∃ s1, (swapBuffers_step ⟨true, none, emptyWorld, 5, 0, 5, 0, 16, 0, ("p")⟩).session
        = some s1
      ∧ s1.m_count = 1
      ∧ s1.m_filename = some ⟨s1.m_pfx, 0⟩
      ∧ (swapBuffers_step ⟨true, none, emptyWorld, 5, 0, 5, 0, 16, 0, ("p")⟩).frame_count = 1
      ∧ (swapBuffers_step ⟨true, none, emptyWorld, 5, 0, 5, 0, 16, 0, ("p")⟩).session_serial
          = 0 + 1) :=
  ⟨(C7_frame_session_replacement ⟨true, none, emptyWorld, 7, 0, 5, 3, 16, 0, ("p")⟩).1
      (by decide),
   (C7_frame_session_replacement ⟨true, none, emptyWorld, 5, 0, 5, 0, 16, 0, ("p")⟩).2
      rfl (by decide) (by decide) rfl⟩

/-- Embedding of `gl_function`: linear scan of the `every_function`
table (the macro-generated entries plus the hand-written shims), mapping
an intercepted name to this process's own address for it; pointers are
`Nat` with `0` for null. -/
def gl_function : List (String × Nat) → String → Nat
  | [], _ => 0
  | (n, f) :: rest, name => if name = n then f else gl_function rest name

/-- Embedding of the interposed `glXGetProcAddress`: consult the local
table first, else fall back to `gl_dlsym`. -/
def glXGetProcAddress_impl (table : List (String × Nat)) (gl_dlsym_f : String → Nat)
    (name : String) : Nat :=
  let q := gl_function table name
  if q ≠ 0 then q else gl_dlsym_f name

/-- Embedding of the interposed `glXGetProcAddressARB`, which simply
calls `glXGetProcAddress`. -/
def glXGetProcAddressARB_impl (table : List (String × Nat)) (gl_dlsym_f : String → Nat)
    (name : String) : Nat :=
  glXGetProcAddress_impl table gl_dlsym_f name

/-- Embedding of the interposed `eglGetProcAddress` (return value; the
`prefer_gl_sym := false` global flip is not modelled): local table, then
`egl_dlsym`, then `gles_dlsym`. -/
def eglGetProcAddress_impl (table : List (String × Nat))
    (egl_dlsym_f gles_dlsym_f : String → Nat) (name : String) : Nat :=
  let q := gl_function table name
  if q ≠ 0 then q
  else
    let q2 := egl_dlsym_f name
    if q2 ≠ 0 then q2 else gles_dlsym_f name

/-- Embedding of the interposed `dlsym` (the handle argument plays no
role in the interception path): local table first, else `real_dlsym`. -/
def dlsym_impl (table : List (String × Nat)) (real_dlsym_f : String → Nat)
    (name : String) : Nat :=
  let q := gl_function table name
  if q ≠ 0 then q else real_dlsym_f name

/-- C8: every symbol-provider entry point consults the static table of
intercepted names first: when the scan finds a non-null local address,
all four return exactly it, regardless of the real resolution chains;
only when the scan misses (returns null) do they fall back to their
respective chains; and the scan returns the first table entry whose name
matches. -/
theorem C8_local_table_first (table : List (String × Nat)) (name : String)
    (gl_dlsym_f egl_dlsym_f gles_dlsym_f real_dlsym_f : String → Nat) :
    (gl_function table name ≠ 0 →
      glXGetProcAddress_impl table gl_dlsym_f name = gl_function table name ∧
      glXGetProcAddressARB_impl table gl_dlsym_f name = gl_function table name ∧
      eglGetProcAddress_impl table egl_dlsym_f gles_dlsym_f name = gl_function table name ∧
      dlsym_impl table real_dlsym_f name = gl_function table name) ∧
    (gl_function table name = 0 →
      glXGetProcAddress_impl table gl_dlsym_f name = gl_dlsym_f name ∧
      glXGetProcAddressARB_impl table gl_dlsym_f name = gl_dlsym_f name ∧
      eglGetProcAddress_impl table egl_dlsym_f gles_dlsym_f name
        = (if egl_dlsym_f name ≠ 0 then egl_dlsym_f name else gles_dlsym_f name) ∧
      dlsym_impl table real_dlsym_f name = real_dlsym_f name) ∧
    (∀ pre n f rest, table = pre ++ (n, f) :: rest → (∀ x ∈ pre, x.1 ≠ name) →
      n = name → gl_function table name = f) := by
  refine ⟨?_, ?_, ?_⟩
  · intro h
    refine ⟨?_, ?_, ?_, ?_⟩ <;>
      simp [glXGetProcAddress_impl, glXGetProcAddressARB_impl, eglGetProcAddress_impl,
        dlsym_impl, h]
  · intro h
    refine ⟨?_, ?_, ?_, ?_⟩ <;>
      simp [glXGetProcAddress_impl, glXGetProcAddressARB_impl, eglGetProcAddress_impl,
        dlsym_impl, h]
  · intro pre
    induction pre generalizing table with
    | nil =>
      intro n f rest htable _ hname
      subst htable
      subst hname
      simp [gl_function]
    | cons x pres ih =>
      intro n f rest htable hpre hname
      subst htable
      have hx : x.1 ≠ name := hpre x (List.mem_cons_self x pres)
      obtain ⟨xn, xf⟩ := x
      simp only [List.cons_append, gl_function]
      rw [if_neg (fun hc => hx hc.symm)]
      exact ih (pres ++ (n, f) :: rest) n f rest rfl
        (fun y hy => hpre y (List.mem_cons_of_mem _ hy)) hname

theorem C8_local_table_first_witness :
    (glXGetProcAddress_impl [(("glFoo"), 5), (("glXSwapBuffers"), 7)]
        (fun _ => 11) ("glFoo") = 5) ∧
    (dlsym_impl [(("glFoo"), 5), (("glXSwapBuffers"), 7)] (fun _ => 13) ("glBar") = 13) := by
  constructor
  · have h := (C8_local_table_first [(("glFoo"), 5), (("glXSwapBuffers"), 7)] ("glFoo")
      (fun _ => 11) (fun _ => 11) (fun _ => 11) (fun _ => 11)).1 (by decide)
    rw [h.1]
    decide
  · have h := (C8_local_table_first [(("glFoo"), 5), (("glXSwapBuffers"), 7)] ("glBar")
      (fun _ => 13) (fun _ => 13) (fun _ => 13) (fun _ => 13)).2.1 (by decide)
    exact h.2.2.2

/-- The last `n` elements of a list. -/
def lastN {α : Type _} (n : Nat) (l : List α) : List α := l.drop (l.length - n)

theorem lastN_snoc {α : Type _} (m : Nat) (xs : List α) (y : α) (hm : m ≤ xs.length) :
    lastN m xs ++ [y] = lastN (m + 1) (xs ++ [y]) := by
  simp only [lastN, List.length_append, List.length_cons, List.length_nil]
  have h1 : xs.length + (0 + 1) - (m + 1) = xs.length - m := by omega
  rw [h1, List.drop_append_eq_append_drop]
  have h2 : xs.length - m - xs.length = 0 := by omega
  rw [h2, List.drop_zero]

theorem lastN_drop {α : Type _} (m k : Nat) (xs : List α) (hk : k ≤ m) (hm : m ≤ xs.length) :
    (lastN m xs).drop k = lastN (m - k) xs := by
  simp only [lastN, List.drop_drop]
  congr 1
  omega

theorem evictLoop_spec (maxN : Nat) (hN : 0 < maxN) :
    ∀ (ringNames suffix : List FileName),
    evictLoop maxN ringNames.length (ringNames.map some) (ringNames ++ suffix)
      = (min ringNames.length (maxN - 1),
         (ringNames.drop (ringNames.length - (maxN - 1))).map some,
         ringNames.drop (ringNames.length - (maxN - 1)) ++ suffix) := by
  intro ringNames
  induction ringNames with
  | nil =>
    intro suffix
    simp [evictLoop]
  | cons fn rest ih =>
    intro suffix
    by_cases hge : rest.length + 1 ≥ maxN
    · have hstep : evictLoop maxN (fn :: rest).length ((fn :: rest).map some)
          ((fn :: rest) ++ suffix)
          = evictLoop maxN rest.length (rest.map some) (rest ++ suffix) := by
        show evictLoop maxN (rest.length + 1) (some fn :: rest.map some)
          (fn :: (rest ++ suffix)) = _
        simp only [evictLoop]
        rw [if_pos hge]
        simp [List.erase_cons_head]
      rw [hstep, ih suffix]
      have h2 : min rest.length (maxN - 1) = maxN - 1 := by omega
      have h3 : min (fn :: rest).length (maxN - 1) = maxN - 1 := by
        simp only [List.length_cons]
        omega
      have h4 : (fn :: rest).length - (maxN - 1) = (rest.length - (maxN - 1)) + 1 := by
        simp only [List.length_cons]
        omega
      rw [h2, h3, h4]
      simp only [List.drop_succ_cons]
    · show evictLoop maxN (rest.length + 1) (some fn :: rest.map some)
        (fn :: (rest ++ suffix)) = _
      simp only [evictLoop]
      rw [if_neg hge]
      have h2 : min (fn :: rest).length (maxN - 1) = rest.length + 1 := by
        simp only [List.length_cons]
        omega
      have h3 : (fn :: rest).length - (maxN - 1) = 0 := by
        simp only [List.length_cons]
        omega
      rw [h2, h3]
      simp

/-- Filenames of the currently open file, as present on disk. -/
def openNames (s : Session) : List FileName :=
  match s.m_file with
  | some f => [f.fname]
  | none => []

/-- Reachability invariant of a retention-mode session (bound `N > 0`):
the count mirrors the ring length, the ring holds exactly the most
recently closed filenames, the disk holds exactly the retained files
plus the currently open one, every disk name was minted by this session
(index below the file counter), and `m_filename` mirrors the open
file. -/
structure RInv (N : Nat) (s : Session) (w : World) : Prop where
  hmax : s.m_most_recent_ioctl_max = N
  hcnt : s.m_most_recent_ioctl_file_cnt = s.m_most_recent_ioctl_files.length
  hlast : s.m_most_recent_ioctl_files
    = lastN s.m_most_recent_ioctl_files.length (w.closedLog.map (fun e => e.1))
  hlen : s.m_most_recent_ioctl_files.length = min w.closedLog.length N
  hdisk : ∃ ringNames : List FileName,
    s.m_most_recent_ioctl_files = ringNames.map some ∧ w.disk = ringNames ++ openNames s
  hidx : ∀ fn ∈ w.disk, fn.pfx = s.m_pfx ∧ fn.idx < s.m_count
  hfname : s.m_filename = s.m_file.map (fun f => f.fname)

theorem close_file_retention (s : Session) (w : World) (f : OpenFile)
    (hf : s.m_file = some f) (hmrm : 0 < s.m_most_recent_ioctl_max) :
    close_file s w
      = ({ s with
             m_file := none,
             m_most_recent_ioctl_file_cnt :=
               (evictLoop s.m_most_recent_ioctl_max s.m_most_recent_ioctl_file_cnt
                 s.m_most_recent_ioctl_files w.disk).1 + 1,
             m_most_recent_ioctl_files :=
               (evictLoop s.m_most_recent_ioctl_max s.m_most_recent_ioctl_file_cnt
                 s.m_most_recent_ioctl_files w.disk).2.1 ++ [s.m_filename],
             m_filename := none },
         { w with
             closedLog := w.closedLog ++ [(s.m_filename, f.contents
               ++ encodeRecords (List.replicate s.m_block_stack.length endRecord))],
             disk := (evictLoop s.m_most_recent_ioctl_max s.m_most_recent_ioctl_file_cnt
               s.m_most_recent_ioctl_files w.disk).2.2 }) := by
  simp only [close_file, hf, writeEndsLoop_eq]
  rw [if_pos hmrm]
  simp [contentsOf, appendBytes, hf]

theorem close_file_RInv (N : Nat) (hN : 0 < N) (s : Session) (w : World)
    (h : RInv N s w) : RInv N (close_file s w).1 (close_file s w).2 := by
  obtain ⟨hmax, hcnt, hlast, hlen, ⟨ringNames, hring, hdisk⟩, hidx, hfname⟩ := h
  cases hf : s.m_file with
  | none =>
    rw [close_file_nofile s w hf]
    exact ⟨hmax, hcnt, hlast, hlen, ⟨ringNames, hring, hdisk⟩, hidx, hfname⟩
  | some f =>
    have hmrm : 0 < s.m_most_recent_ioctl_max := by rw [hmax]; exact hN
    have hopen : openNames s = [f.fname] := by simp [openNames, hf]
    have hdisk2 : w.disk = ringNames ++ [f.fname] := by rw [hdisk, hopen]
    have hcnt2 : s.m_most_recent_ioctl_file_cnt = ringNames.length := by
      rw [hcnt, hring, List.length_map]
    have hfn : s.m_filename = some f.fname := by rw [hfname, hf]; rfl
    have hlen2 : ringNames.length = min w.closedLog.length N := by
      rw [hring, List.length_map] at hlen
      exact hlen
    have hmaplast : ringNames.map some
        = lastN ringNames.length (w.closedLog.map (fun e => e.1)) := by
      rw [hring] at hlast
      rw [List.length_map] at hlast
      exact hlast
    have hev := evictLoop_spec N hN ringNames [f.fname]
    rw [close_file_retention s w f hf hmrm, hmax, hcnt2, hring, hdisk2, hev]
    have hrlM : ringNames.length ≤ w.closedLog.length := by omega
    have hMn : (w.closedLog.map (fun e => e.1)).length = w.closedLog.length :=
      List.length_map _ _
    constructor
    · rfl
    · show min ringNames.length (N - 1) + 1 = _
      simp only [List.length_append, List.length_map, List.length_drop,
        List.length_cons, List.length_nil]
      omega
    · show (ringNames.drop (ringNames.length - (N - 1))).map some ++ [s.m_filename]
        = lastN ((ringNames.drop (ringNames.length - (N - 1))).map some
            ++ [s.m_filename]).length
          ((w.closedLog ++ [(s.m_filename, f.contents
            ++ encodeRecords (List.replicate s.m_block_stack.length endRecord))]).map
              (fun e => e.1))
      rw [List.map_append]
      have hlen3 : ((ringNames.drop (ringNames.length - (N - 1))).map some
          ++ [s.m_filename]).length = (ringNames.length - (ringNames.length - (N - 1))) + 1 := by
        simp only [List.length_append, List.length_map, List.length_drop,
          List.length_cons, List.length_nil]
      rw [hlen3]
      have hstep1 : (ringNames.drop (ringNames.length - (N - 1))).map some
          = lastN (ringNames.length - (ringNames.length - (N - 1)))
              (w.closedLog.map (fun e => e.1)) := by
        rw [List.map_drop, hmaplast]
        rw [lastN_drop (ringNames.length) (ringNames.length - (N - 1)) _ (by omega)
          (by rw [hMn]; exact hrlM)]
      rw [hstep1]
      rw [lastN_snoc _ _ _ (by rw [hMn]; omega)]
      rfl
    · show ((ringNames.drop (ringNames.length - (N - 1))).map some ++ [s.m_filename]).length
        = (w.closedLog ++ [(s.m_filename, f.contents
            ++ encodeRecords (List.replicate s.m_block_stack.length endRecord))]).length ⊓ N
      simp only [List.length_append, List.length_map, List.length_drop,
        List.length_cons, List.length_nil]
      omega
    · refine ⟨ringNames.drop (ringNames.length - (N - 1)) ++ [f.fname], ?_, ?_⟩
      · rw [List.map_append, hfn]
        rfl
      · show ringNames.drop (ringNames.length - (N - 1)) ++ [f.fname]
          = (ringNames.drop (ringNames.length - (N - 1)) ++ [f.fname]) ++ ([] : List FileName)
        rw [List.append_nil]
    · intro fn hmem
      show fn.pfx = s.m_pfx ∧ fn.idx < s.m_count
      rcases List.mem_append.mp hmem with h1 | h1
      · exact hidx fn (by rw [hdisk2]; exact List.mem_append_left _ (List.drop_subset _ _ h1))
      · simp only [List.mem_singleton] at h1
        subst h1
        exact hidx f.fname (by rw [hdisk2]; exact List.mem_append_right _ (by simp))
    · rfl

theorem start_new_file_RInv (N : Nat) (hN : 0 < N) (s : Session) (w : World)
    (h : RInv N s w) : RInv N (start_new_file s w).1 (start_new_file s w).2 := by
  have hc := close_file_RInv N hN s w h
  obtain ⟨h1, h2⟩ := start_new_file_spec s w
  obtain ⟨hmax, hcnt, hlast, hlen, ⟨ringNames, hring, hdisk⟩, hidx, hfname⟩ := hc
  obtain ⟨hcstk, hcpfx, hccnt, hcmax, hcmaxfs, hcfile⟩ := close_file_core s w
  have hopen : openNames (close_file s w).1 = [] := by simp [openNames, hcfile]
  have hdisk2 : (close_file s w).2.disk = ringNames := by rw [hdisk, hopen, List.append_nil]
  have hfresh : (⟨s.m_pfx, s.m_count⟩ : FileName) ∉ (close_file s w).2.disk := by
    intro hmem
    obtain ⟨hp, hi⟩ := hidx _ hmem
    rw [hccnt] at hi
    have hi2 : s.m_count < s.m_count := hi
    omega
  have hw2 : (start_new_file s w).2
      = { (close_file s w).2 with
            disk := (close_file s w).2.disk ++ [⟨s.m_pfx, s.m_count⟩] } := by
    rw [h2]
    simp [fopen_w, hfresh]
  rw [h1, hw2]
  constructor
  · exact hmax
  · exact hcnt
  · exact hlast
  · exact hlen
  · refine ⟨ringNames, hring, ?_⟩
    show (close_file s w).2.disk ++ [⟨s.m_pfx, s.m_count⟩] = ringNames ++ _
    rw [hdisk2]
    rfl
  · intro fn hmem
    show fn.pfx = (close_file s w).1.m_pfx ∧ fn.idx < s.m_count + 1
    rcases List.mem_append.mp hmem with h1 | h1
    · obtain ⟨hp, hi⟩ := hidx fn h1
      rw [hccnt] at hi
      exact ⟨hp, by omega⟩
    · simp only [List.mem_singleton] at h1
      subst h1
      exact ⟨by rw [hcpfx], Nat.lt_succ_self s.m_count⟩
  · rfl

theorem write_fcn_RInv (N : Nat) (s : Session) (w : World) (h : RInv N s w)
    (tp : MessageType) (n v : List Byte) :
    ∀ s1, write_fcn s tp n v = some s1 → RInv N s1 w := by
  intro s1 hEq
  have hfields : s1.m_most_recent_ioctl_max = s.m_most_recent_ioctl_max
      ∧ s1.m_most_recent_ioctl_file_cnt = s.m_most_recent_ioctl_file_cnt
      ∧ s1.m_most_recent_ioctl_files = s.m_most_recent_ioctl_files
      ∧ s1.m_pfx = s.m_pfx ∧ s1.m_count = s.m_count ∧ s1.m_filename = s.m_filename
      ∧ s1.m_file = appendBytes s.m_file (encodeRecord ⟨tp, n, v⟩) := by
    cases tp with
    | blockBegin =>
      simp only [write_fcn, Option.some.injEq] at hEq
      subst hEq
      exact ⟨rfl, rfl, rfl, rfl, rfl, rfl, rfl⟩
    | blockEnd =>
      cases hbs : s.m_block_stack with
      | nil =>
        simp only [write_fcn, hbs] at hEq
        exact Option.noConfusion hEq
      | cons b bs =>
        simp only [write_fcn, hbs, Option.some.injEq] at hEq
        subst hEq
        exact ⟨rfl, rfl, rfl, rfl, rfl, rfl, rfl⟩
    | value =>
      simp only [write_fcn, Option.some.injEq] at hEq
      subst hEq
      exact ⟨rfl, rfl, rfl, rfl, rfl, rfl, rfl⟩
  obtain ⟨f1, f2, f3, f4, f5, f6, f7⟩ := hfields
  obtain ⟨hmax, hcnt, hlast, hlen, ⟨ringNames, hring, hdisk⟩, hidx, hfname⟩ := h
  have hopen : openNames s1 = openNames s := by
    cases hmo : s.m_file with
    | none => simp [openNames, f7, hmo, appendBytes]
    | some f => simp [openNames, f7, hmo, appendBytes]
  have hfname1 : s1.m_filename = s1.m_file.map (fun f => f.fname) := by
    rw [f6, f7, hfname]
    cases hmo : s.m_file with
    | none => rfl
    | some f => rfl
  constructor
  · rw [f1]; exact hmax
  · rw [f2, f3]; exact hcnt
  · rw [f3]; exact hlast
  · rw [f3]; exact hlen
  · exact ⟨ringNames, by rw [f3]; exact hring, by rw [hdisk, hopen]⟩
  · intro fn hmem
    obtain ⟨hp, hi⟩ := hidx fn hmem
    exact ⟨by rw [f4]; exact hp, by rw [f5]; exact hi⟩
  · exact hfname1

theorem pre_RInv (N : Nat) (hN : 0 < N) (s : Session) (w : World) (i : Nat)
    (h : RInv N s w) :
    RInv N (pre_execbuffer2_ioctl_fcn s w i).1 (pre_execbuffer2_ioctl_fcn s w i).2 := by
  unfold pre_execbuffer2_ioctl_fcn
  have hc : s.m_most_recent_ioctl_max > 0 := by rw [h.hmax]; exact hN
  rw [if_pos hc]
  exact start_new_file_RInv N hN s w h

theorem post_RInv (N : Nat) (hN : 0 < N) (s : Session) (w : World) (i : Nat)
    (h : RInv N s w) :
    RInv N (post_execbuffer2_ioctl_fcn s w i).1 (post_execbuffer2_ioctl_fcn s w i).2 := by
  unfold post_execbuffer2_ioctl_fcn
  have hc : s.m_most_recent_ioctl_max > 0 := by rw [h.hmax]; exact hN
  cases hf : s.m_file with
  | none => simp only [hf]; exact h
  | some f =>
    simp only [hf]
    rw [if_pos hc]
    exact close_file_RInv N hN s w h

theorem runOps_RInv (N : Nat) (hN : 0 < N) (ops : List SessionOp) : ∀ s w s1 w1,
    RInv N s w → runOps s w ops = some (s1, w1) → RInv N s1 w1 := by
  induction ops with
  | nil =>
    intro s w s1 w1 h hrun
    simp only [runOps, Option.some.injEq, Prod.mk.injEq] at hrun
    obtain ⟨e1, e2⟩ := hrun
    subst e1; subst e2
    exact h
  | cons op ops ih =>
    intro s w s1 w1 h hrun
    rw [runOps] at hrun
    cases op with
    | write tp n v =>
      simp only [sessionStep] at hrun
      cases hwr : write_fcn s tp n v with
      | none =>
        rw [hwr] at hrun
        exact Option.noConfusion hrun
      | some s2 =>
        rw [hwr] at hrun
        exact ih s2 w s1 w1 (write_fcn_RInv N s w h tp n v s2 hwr) hrun
    | preIoctl i =>
      refine ih (pre_execbuffer2_ioctl_fcn s w i).1 (pre_execbuffer2_ioctl_fcn s w i).2
        s1 w1 (pre_RInv N hN s w i h) ?_
      exact hrun
    | postIoctl i =>
      refine ih (post_execbuffer2_ioctl_fcn s w i).1 (post_execbuffer2_ioctl_fcn s w i).2
        s1 w1 (post_RInv N hN s w i h) ?_
      exact hrun

theorem runFromInit_RInv (N : Nat) (hN : 0 < N) (maxfs : Int) (gc : Nat) (pfx : String)
    (ops : List SessionOp) : ∀ s1 w1,
    runFromInit N maxfs gc pfx ops = some (s1, w1) → RInv N s1 w1 := by
  intro s1 w1 hrun
  have hinit : RInv N
      ({ m_most_recent_ioctl_max := N, m_max_filesize := maxfs, m_count := 0,
         m_most_recent_ioctl_file_cnt := 0, m_most_recent_ioctl_files := [],
         m_block_stack := [],
         m_pfx := if N = 0 then pfx ++ ("-") ++ toString (if N = 0 then gc + 1 else gc)
           else pfx,
         m_filename := none, m_file := none } : Session) (⟨[], []⟩ : World) := by
    constructor
    · rfl
    · rfl
    · rfl
    · show 0 = min 0 N
      omega
    · exact ⟨[], rfl, rfl⟩
    · intro fn hmem
      cases hmem
    · rfl
  have hstart := start_new_file_RInv N hN _ _ hinit
  exact runOps_RInv N hN ops _ _ s1 w1 hstart hrun

/-- C5: in retention mode with bound N > 0, each closure of an open file
first evicts the oldest retained filenames while the retained count is
at least N, then appends the just-closed filename, keeping at most N
names in the ring; and across any run from a fresh retention session,
the ring always holds the min(M, N) most recently closed filenames, so
once M ≥ N files have been closed it holds exactly the N most recent,
and the disk holds exactly the retained names plus the currently open
file. -/
theorem C5_retention_ring (N : Nat) (hN : 0 < N) :
    (∀ s w f ringNames, s.m_most_recent_ioctl_max = N → s.m_file = some f →
      s.m_most_recent_ioctl_files = ringNames.map some →
      s.m_most_recent_ioctl_file_cnt = ringNames.length →
      w.disk = ringNames ++ [f.fname] →
      (close_file s w).1.m_most_recent_ioctl_files
        = (ringNames.drop (ringNames.length - (N - 1))).map some ++ [s.m_filename]
      ∧ (close_file s w).1.m_most_recent_ioctl_file_cnt = min ringNames.length (N - 1) + 1
      ∧ (close_file s w).1.m_most_recent_ioctl_file_cnt ≤ N
      ∧ (close_file s w).2.disk
          = ringNames.drop (ringNames.length - (N - 1)) ++ [f.fname]) ∧
    (∀ maxfs gc pfx ops s1 w1,
      runFromInit N maxfs gc pfx ops = some (s1, w1) →
      s1.m_most_recent_ioctl_files.length = min w1.closedLog.length N ∧
      s1.m_most_recent_ioctl_files
        = lastN s1.m_most_recent_ioctl_files.length (w1.closedLog.map (fun e => e.1)) ∧
      (N ≤ w1.closedLog.length →
        s1.m_most_recent_ioctl_files = lastN N (w1.closedLog.map (fun e => e.1)) ∧
        s1.m_most_recent_ioctl_files.length = N) ∧
      (∃ ringNames : List FileName,
        s1.m_most_recent_ioctl_files = ringNames.map some ∧
        w1.disk = ringNames ++ openNames s1)) := by
  constructor
  · intro s w f ringNames hmax hf hring hcnt hdisk
    have hmrm : 0 < s.m_most_recent_ioctl_max := by rw [hmax]; exact hN
    rw [close_file_retention s w f hf hmrm, hmax, hcnt, hring, hdisk,
      evictLoop_spec N hN ringNames [f.fname]]
    refine ⟨rfl, rfl, ?_, rfl⟩
    show min ringNames.length (N - 1) + 1 ≤ N
    omega
  · intro maxfs gc pfx ops s1 w1 hrun
    have hr := runFromInit_RInv N hN maxfs gc pfx ops s1 w1 hrun
    obtain ⟨hmax, hcnt, hlast, hlen, hdisk, hidx, hfname⟩ := hr
    refine ⟨hlen, hlast, ?_, hdisk⟩
    intro hM
    have hlenN : s1.m_most_recent_ioctl_files.length = N := by omega
    rw [hlenN] at hlast
    exact ⟨hlast, hlenN⟩

/-- Retention-mode cycle stream: two execbuffer2 call cycles after the
initial file, producing three closed files in total. -/
def C5ops : List SessionOp :=
  [SessionOp.preIoctl 0, SessionOp.postIoctl 0, SessionOp.preIoctl 1, SessionOp.postIoctl 1]

/-- Result state of running `C5ops` in retention mode with bound 1. -/
def C5res : Session × World :=
  (runFromInit 1 16 0 ("p") C5ops).getD (sampleSession 0 0 [] none, emptyWorld)

theorem C5_retention_ring_witness :
    C5res.1.m_most_recent_ioctl_files
      = lastN 1 (C5res.2.closedLog.map (fun e => e.1)) ∧
    C5res.1.m_most_recent_ioctl_files.length = 1 ∧
    (1 : Nat) ≤ C5res.2.closedLog.length := by
  have hr : runFromInit 1 16 0 ("p") C5ops = some C5res := by decide
  have h := ((C5_retention_ring 1 (by decide)).2 16 0 ("p") C5ops C5res.1 C5res.2 hr).2.2.1
    (by decide)
  exact ⟨h.1, h.2, by decide⟩

end I965Blackbox
